import Mathlib

/-!
# Verification of `easy_color`'s HSL module (`src/hsl.rs`)

This file shallowly embeds the HSL color type of the `easy_color` Rust
crate: the struct `HSL`, its two fallible constructors
(`TryFrom<&str>` and `TryFrom<(u32,u32,u32)>`), its `Display`
formatter, and its mutators (`set_hue`, `set_saturation`,
`set_lightness`, `darken`, `lighten`, `rotate`).

Embedding conventions:
* Rust strings are `List Char`; `u32` values are `Nat` (with `< 2^32`
  bounds made explicit exactly where overflow matters); `i32` values
  are `Int` with the i32 range made explicit where overflow matters.
* `f32` arguments are embedded by their exact rational value (`ℚ`);
  the single source multiplication `self.l as f32 * ratio` is embedded
  as `f32round` of the exact product, where `f32round` is IEEE-754
  binary32 round-to-nearest-even (`self.l as f32` is exact for the
  in-range lightness values the claims quantify over); the saturating
  truncating `as u32` cast is `castU32` below.
* Where the Rust arithmetic can overflow (`u32` subtraction/addition
  in `darken`/`lighten`, the `i32` addition in `rotate`) the embedding
  returns `Option`, with `none` modelling the arithmetic-overflow
  panic of checked (debug-profile) Rust builds; release builds would
  wrap instead, and both disagree with the spec text at those inputs.
* Fallible constructors return `Except ColorError HSL`, mirroring
  `Result<Self, ColorError>`.
-/

namespace EasyColor

/-- The Unicode `White_Space` code points, as tested by Rust's
`char::is_whitespace`, which `str::trim` uses. -/
def isWs (c : Char) : Bool :=
  c.toNat == 9 || c.toNat == 10 || c.toNat == 11 || c.toNat == 12 ||
  c.toNat == 13 || c.toNat == 32 || c.toNat == 0x85 || c.toNat == 0xA0 ||
  c.toNat == 0x1680 || (0x2000 ≤ c.toNat && c.toNat ≤ 0x200A) ||
  c.toNat == 0x2028 || c.toNat == 0x2029 || c.toNat == 0x202F ||
  c.toNat == 0x205F || c.toNat == 0x3000

/-- Rust `str::trim`: drop whitespace from both ends. -/
def trimWs (s : List Char) : List Char :=
  ((s.dropWhile isWs).reverse.dropWhile isWs).reverse

/-- Rust `char` lowercasing, restricted to the ASCII range `A`–`Z`.
Every character of the `hsl(...)` grammar (the fixed frame
`h`/`s`/`l`/`(`/`)`/`,`/`%`, ASCII digits, `+`, whitespace) is fixed
by Unicode lowercasing, so on the strings this development reasons
about this agrees with `str::to_lowercase`. -/
def lowerChar (c : Char) : Char :=
  if 65 ≤ c.toNat ∧ c.toNat ≤ 90 then Char.ofNat (c.toNat + 32) else c

/-- Rust `str::to_lowercase` (see `lowerChar`). -/
def asciiLower (s : List Char) : List Char := s.map lowerChar

/-- Rust `str::trim_end_matches('%')`: repeatedly strip a trailing `%`. -/
def trimEndPercent (s : List Char) : List Char :=
  (s.reverse.dropWhile (fun c => c == '%')).reverse

/-- Rust `String::replace(pat, "")`, which removes every
(left-to-right, non-overlapping) occurrence of `pat`.  Implemented
with a fuel argument so that the kernel can evaluate it; `removeOcc`
below supplies adequate fuel. -/
def removeOccAux (pat : List Char) : Nat → List Char → List Char
  | _, [] => []
  | 0, s => s
  | fuel + 1, c :: rest =>
    if pat ≠ [] ∧ pat.isPrefixOf (c :: rest) then
      removeOccAux pat fuel ((c :: rest).drop pat.length)
    else
      c :: removeOccAux pat fuel rest

/-- Rust `String::replace(pat, "")` (see `removeOccAux`). -/
def removeOcc (pat s : List Char) : List Char := removeOccAux pat s.length s

/-- Rust `str::split(',')`: split at every comma, keeping empty fields;
the empty string yields one empty field. -/
def splitComma : List Char → List (List Char)
  | [] => [[]]
  | c :: rest =>
    if c = ',' then
      [] :: splitComma rest
    else
      match splitComma rest with
      | [] => [[c]]
      | f :: fs => (c :: f) :: fs

/-- Rust `char::is_ascii_digit` (`'0'..='9'`). -/
def isAsciiDigit (c : Char) : Bool := 48 ≤ c.toNat && c.toNat ≤ 57

/-- Numeric value of an ASCII digit character. -/
def digitVal (c : Char) : Nat := c.toNat - 48

/-- Value of a string of decimal digits (most significant first). -/
def digitsVal (s : List Char) : Nat := s.foldl (fun a c => 10 * a + digitVal c) 0

/-- The optional leading `+` sign accepted by Rust's unsigned
`FromStr` implementations. -/
def stripPlus (s : List Char) : List Char :=
  if s.head? = some '+' then s.tail else s

/-- Rust `str::parse::<u32>()`: an optional leading `+`, then one or
more ASCII digits, with the value required to fit in `u32`; anything
else is a parse error (`none`). -/
def parseU32 (s : List Char) : Option Nat :=
  if stripPlus s ≠ [] ∧ (stripPlus s).all isAsciiDigit then
    if digitsVal (stripPlus s) < 2 ^ 32 then some (digitsVal (stripPlus s)) else none
  else none

/-- Decimal digits of `n`, most significant first, as written by Rust's
`Display` for unsigned integers (fuel-based so the kernel can evaluate
it; `natToChars` supplies adequate fuel). -/
def natToCharsAux : Nat → Nat → List Char
  | 0, _ => []
  | fuel + 1, n =>
    if n < 10 then [Char.ofNat (48 + n)]
    else natToCharsAux fuel (n / 10) ++ [Char.ofNat (48 + n % 10)]

/-- Decimal representation of `n` (see `natToCharsAux`). -/
def natToChars (n : Nat) : List Char := natToCharsAux (n + 1) n

/-- The error enum `ColorError`.  The Rust constructors carry a
formatted message string; the embedding carries the data that the
source interpolates into that message (the offending input string for
`FormatErr`, the offending tuple for `ValueErr`); the message wording
itself is out of scope. -/
inductive ColorError
  | FormatErr : List Char → ColorError
  | ValueErr : Nat × Nat × Nat → ColorError
deriving DecidableEq

/-- The struct `HSL { h: u32, s: u32, l: u32 }`. -/
structure HSL where
  h : Nat
  s : Nat
  l : Nat
deriving DecidableEq

/-- The documented field invariant: `h` in `0..=360`, `s`, `l` in `0..=100`. -/
def HSL.valid (x : HSL) : Prop := x.h ≤ 360 ∧ x.s ≤ 100 ∧ x.l ≤ 100

instance (x : HSL) : Decidable x.valid := by unfold HSL.valid; infer_instance

/-- `impl TryFrom<(u32, u32, u32)> for HSL`: range-check the triple
(`0..=360` for hue, `0..=100` for saturation and lightness), and store
it unchanged on success. -/
def HSL.tryFromTuple (v : Nat × Nat × Nat) : Except ColorError HSL :=
  if ¬ (0 ≤ v.1 ∧ v.1 ≤ 360) ∨ ¬ (0 ≤ v.2.1 ∧ v.2.1 ≤ 100) ∨ ¬ (0 ≤ v.2.2 ∧ v.2.2 ≤ 100) then
    .error (.ValueErr v)
  else
    .ok ⟨v.1, v.2.1, v.2.2⟩

/-- `impl TryFrom<&str> for HSL`: trim and lowercase; require the
`hsl(` prefix and `)` suffix; delete every occurrence of `hsl(` and of
`)`; split at commas into exactly three fields; per field, trim, strip
trailing `%`s and parse as `u32`, keeping only the successes; if all
three parse, defer to the tuple constructor, otherwise report a format
error carrying the original input. -/
def HSL.tryFromStr (inp : List Char) : Except ColorError HSL :=
  let color := asciiLower (trimWs inp)
  if "hsl(".toList.isPrefixOf color ∧ [')'].isSuffixOf color then
    let color2 := removeOcc [')'] (removeOcc "hsl(".toList color)
    let tmp := splitComma color2
    if tmp.length = 3 then
      match (tmp.map (fun f => parseU32 (trimEndPercent (trimWs f)))).filterMap id with
      | [a, b, c] => HSL.tryFromTuple (a, b, c)
      | _ => .error (.FormatErr inp)
    else .error (.FormatErr inp)
  else .error (.FormatErr inp)

/-- `impl Display for HSL`: `write!(f, "hsl({},{}%,{}%)", h, s, l)`. -/
def HSL.toChars (x : HSL) : List Char :=
  "hsl(".toList ++ natToChars x.h ++ [','] ++ natToChars x.s ++ "%,".toList
    ++ natToChars x.l ++ "%)".toList

/-- `HSL::set_hue`: `self.h = hue.min(360)`. -/
def HSL.set_hue (x : HSL) (hue : Nat) : HSL := { x with h := min hue 360 }

/-- `HSL::set_saturation`: `self.s = saturation.min(100)`. -/
def HSL.set_saturation (x : HSL) (saturation : Nat) : HSL :=
  { x with s := min saturation 100 }

/-- `HSL::set_lightness`: `self.l = lightness.min(100)`. -/
def HSL.set_lightness (x : HSL) (lightness : Nat) : HSL :=
  { x with l := min lightness 100 }

/-- Rust's `as u32` cast of an `f32` value, which saturates: negative
values (and NaN) go to `0`, values at or above `u32::MAX` go to
`u32::MAX`, and everything else is truncated toward zero. -/
def castU32 (q : ℚ) : Nat := if q < 0 then 0 else min (Int.toNat ⌊q⌋) (2 ^ 32 - 1)

/-- Round to the nearest integer with ties to even, the tie-breaking
rule of IEEE-754 round-to-nearest. -/
def rne (x : ℚ) : ℤ :=
  if x - ⌊x⌋ < 1 / 2 then ⌊x⌋
  else if 1 / 2 < x - ⌊x⌋ then ⌊x⌋ + 1
  else if ⌊x⌋ % 2 = 0 then ⌊x⌋ else ⌊x⌋ + 1

/-- IEEE-754 binary32 round-to-nearest-even of a nonnegative rational:
scale by a power of two so that the value lands in the mantissa window
`[2^23, 2^24)`, round to the nearest integer (ties to even), and scale
back.  The exponent is left unbounded: the exponent overflow/underflow
and subnormal behavior of the real format cannot change the value of
the composed `as u32` cast (`castU32` saturates huge values to
`u32::MAX` either way and truncates everything in `[0, 1)` to `0`), so
only the 24-bit precision is observable through the code's use. -/
def f32roundPos (a : ℚ) : ℚ :=
  (rne (a * 2 ^ (23 - Int.log 2 a)) : ℚ) * 2 ^ (Int.log 2 a - 23)

/-- IEEE-754 binary32 round-to-nearest-even (see `f32roundPos`; the
rounding is symmetric under negation).  NaN ratios lie outside the
rational embedding; the source casts a NaN product to `0`, where
darken and lighten trivially succeed. -/
def f32round (q : ℚ) : ℚ :=
  if q ≤ 0 then -f32roundPos (-q) else f32roundPos q

/-- `HSL::darken`: `self.l = (self.l - (self.l as f32 * ratio) as u32).max(0).min(100)`.
`ratio` is embedded by its exact rational value; `self.l as f32` is
exact for every lightness the field invariant allows (`l ≤ 100 < 2^24`),
so the f32 product is `f32round` of the exact product.  The `u32`
subtraction is embedded as checked: `none` models the overflow panic
when the truncated product exceeds the lightness. -/
def HSL.darken (x : HSL) (q : ℚ) : Option HSL :=
  let t := castU32 (f32round ((x.l : ℚ) * q))
  if t ≤ x.l then some { x with l := min (max (x.l - t) 0) 100 } else none

/-- `HSL::lighten`: `self.l = (self.l + (self.l as f32 * ratio) as u32).max(0).min(100)`.
The f32 product is embedded as in `HSL.darken`; the `u32` addition is
embedded as checked: `none` models the overflow panic when `l + t`
does not fit in `u32`. -/
def HSL.lighten (x : HSL) (q : ℚ) : Option HSL :=
  let t := castU32 (f32round ((x.l : ℚ) * q))
  if x.l + t < 2 ^ 32 then some { x with l := min (max (x.l + t) 0) 100 } else none

/-- `HSL::rotate`: `h = (self.h as i32 + degrees) % 360;
h = if h < 0 { 360 + h } else { h }; self.h = h as u32`.  Rust `%` on
`i32` is the truncating remainder `Int.tmod`; the `i32` addition is
embedded as checked, `none` modelling its overflow panic. -/
def HSL.rotate (x : HSL) (degrees : Int) : Option HSL :=
  if -(2 ^ 31) ≤ (x.h : Int) + degrees ∧ (x.h : Int) + degrees < 2 ^ 31 then
    let h0 := Int.tmod ((x.h : Int) + degrees) 360
    let h1 := if h0 < 0 then 360 + h0 else h0
    some { x with h := h1.toNat }
  else none

/-- The ten decimal digit characters. -/
def decDigits : List Char := ['0', '1', '2', '3', '4', '5', '6', '7', '8', '9']

/-- Claim C7's description of the syntactic phase of HSL string
parsing, stated in the spec's own terms for the refinement comparison:
the literal prefix `hsl(` and suffix `)`, and exactly three
comma-separated fields in between, each of which parses as an unsigned
integer after trimming and stripping trailing `%`.  This definition
follows the claim's words (not the source); the refinement theorem
compares it against `HSL.tryFromStr`. -/
def specSyntacticPhase (inp : List Char) : Option (Nat × Nat × Nat) :=
  if "hsl(".toList.isPrefixOf inp ∧ [')'].isSuffixOf inp then
    match (splitComma ((inp.drop 4).dropLast)).map
        (fun f => parseU32 (trimEndPercent (trimWs f))) with
    | [some a, some b, some c] => some (a, b, c)
    | _ => none
  else none

deriving instance DecidableEq for Except

/-! ## Lemmas about the decimal formatter and the integer parser -/

theorem natToCharsAux_congr (f : Nat) :
    ∀ g n : Nat, n < f → n < g → natToCharsAux f n = natToCharsAux g n := by
  induction f with
  | zero => intro g n hf _; omega
  | succ f ih =>
    intro g n hf hg
    cases g with
    | zero => omega
    | succ g =>
      simp only [natToCharsAux]
      by_cases h : n < 10
      · simp [h]
      · simp only [if_neg h]
        rw [ih g (n / 10) (by omega) (by omega)]

theorem natToChars_eq (n : Nat) :
    natToChars n = if n < 10 then [Char.ofNat (48 + n)]
                   else natToChars (n / 10) ++ [Char.ofNat (48 + n % 10)] := by
  by_cases h : n < 10
  · simp [natToChars, natToCharsAux, h]
  · simp only [natToChars, natToCharsAux, if_neg h]
    congr 1
    exact natToCharsAux_congr n (n / 10 + 1) (n / 10) (by omega) (by omega)

theorem ofNat_digit_mem (n : Nat) (h : n < 10) : Char.ofNat (48 + n) ∈ decDigits := by
  interval_cases n <;> decide

theorem natToChars_mem (n : Nat) : ∀ c ∈ natToChars n, c ∈ decDigits := by
  induction n using Nat.strong_induction_on with
  | _ n ih =>
    rw [natToChars_eq]
    by_cases h : n < 10
    · simp only [if_pos h, List.mem_singleton]
      rintro c rfl
      exact ofNat_digit_mem n h
    · simp only [if_neg h, List.mem_append, List.mem_singleton]
      rintro c (hc | rfl)
      · exact ih (n / 10) (by omega) c hc
      · exact ofNat_digit_mem (n % 10) (by omega)

theorem natToChars_ne_nil (n : Nat) : natToChars n ≠ [] := by
  rw [natToChars_eq]
  by_cases h : n < 10 <;> simp [h]

theorem digitsVal_append_singleton (xs : List Char) (c : Char) :
    digitsVal (xs ++ [c]) = 10 * digitsVal xs + digitVal c := by
  simp [digitsVal, List.foldl_append]

theorem digitVal_ofNat (n : Nat) (h : n < 10) : digitVal (Char.ofNat (48 + n)) = n := by
  interval_cases n <;> decide

theorem digitsVal_natToChars (n : Nat) : digitsVal (natToChars n) = n := by
  induction n using Nat.strong_induction_on with
  | _ n ih =>
    rw [natToChars_eq]
    by_cases h : n < 10
    · simp only [if_pos h]
      simpa [digitsVal] using digitVal_ofNat n h
    · simp only [if_neg h, digitsVal_append_singleton]
      rw [ih (n / 10) (by omega), digitVal_ofNat (n % 10) (by omega)]
      omega

theorem decDigit_isAsciiDigit (c : Char) (hc : c ∈ decDigits) : isAsciiDigit c = true := by
  fin_cases hc <;> decide

theorem stripPlus_eq_self (s : List Char) (h : s.head? ≠ some '+') :
    stripPlus s = s := by
  simp [stripPlus, h]

theorem parseU32_all_digits (t : List Char) (hne : t ≠ [])
    (hall : ∀ c ∈ t, isAsciiDigit c = true) (hplus : t.head? ≠ some '+')
    (hv : digitsVal t < 2 ^ 32) : parseU32 t = some (digitsVal t) := by
  unfold parseU32
  rw [stripPlus_eq_self t hplus]
  rw [if_pos ⟨hne, List.all_eq_true.mpr hall⟩]
  exact if_pos hv

theorem parseU32_natToChars (n : Nat) (h : n < 2 ^ 32) :
    parseU32 (natToChars n) = some n := by
  obtain ⟨d, rest, hd⟩ := List.exists_cons_of_ne_nil (natToChars_ne_nil n)
  have hdmem : d ∈ decDigits := natToChars_mem n d (by rw [hd]; simp)
  have hplus : d ≠ '+' := by fin_cases hdmem <;> decide
  have := parseU32_all_digits (natToChars n) (natToChars_ne_nil n)
    (fun c hc => decDigit_isAsciiDigit c (natToChars_mem n c hc))
    (by rw [hd]; simp [hplus]) (by rw [digitsVal_natToChars]; exact h)
  rw [digitsVal_natToChars] at this
  exact this

/-! ## Lemmas about `splitComma` -/

theorem splitComma_ne_nil (s : List Char) : splitComma s ≠ [] := by
  induction s with
  | nil => simp [splitComma]
  | cons c rest ih =>
    simp only [splitComma]
    by_cases h : c = ','
    · simp [h]
    · simp only [if_neg h]
      cases hs : splitComma rest with
      | nil => simp
      | cons f fs => simp

theorem splitComma_no_comma (s : List Char) (h : ∀ c ∈ s, c ≠ ',') :
    splitComma s = [s] := by
  induction s with
  | nil => rfl
  | cons c rest ih =>
    have hc : c ≠ ',' := h c (by simp)
    simp only [splitComma, if_neg hc]
    rw [ih (fun x hx => h x (by simp [hx]))]

theorem splitComma_append (xs ys : List Char) (h : ∀ c ∈ xs, c ≠ ',') :
    splitComma (xs ++ ',' :: ys) = xs :: splitComma ys := by
  induction xs with
  | nil => simp [splitComma]
  | cons c rest ih =>
    have hc : c ≠ ',' := h c (by simp)
    simp only [List.cons_append, splitComma, if_neg hc, List.append_eq]
    rw [ih (fun x hx => h x (by simp [hx]))]

theorem mem_splitComma (s : List Char) (c : Char) (hc : c ∈ s) :
    c = ',' ∨ ∃ f ∈ splitComma s, c ∈ f := by
  induction s with
  | nil => cases hc
  | cons a rest ih =>
    by_cases ha : a = ','
    · rcases List.mem_cons.mp hc with hce | hr
      · left; exact hce.trans ha
      · rcases ih hr with h | ⟨f, hf, hcf⟩
        · left; exact h
        · right; exact ⟨f, by simp [splitComma, ha, hf], hcf⟩
    · cases hs : splitComma rest with
      | nil => exact absurd hs (splitComma_ne_nil rest)
      | cons f fs =>
        have hrec : splitComma (a :: rest) = (a :: f) :: fs := by
          simp [splitComma, ha, hs]
        rcases List.mem_cons.mp hc with hce | hr
        · right; exact ⟨a :: f, by simp [hrec], by simp [hce]⟩
        · rcases ih hr with h | ⟨f1, hf1, hcf1⟩
          · left; exact h
          · rw [hs] at hf1
            rcases List.mem_cons.mp hf1 with hfe | htail
            · right; exact ⟨a :: f, by simp [hrec], by simp [hfe ▸ hcf1]⟩
            · right; exact ⟨f1, by simp [hrec, htail], hcf1⟩

/-! ## Lemmas about `removeOcc` -/

theorem removeOccAux_congr (pat : List Char) (f : Nat) :
    ∀ g s, s.length ≤ f → s.length ≤ g → removeOccAux pat f s = removeOccAux pat g s := by
  induction f with
  | zero =>
    intro g s hf _
    have : s = [] := List.eq_nil_of_length_eq_zero (by omega)
    subst this
    cases g <;> rfl
  | succ f ih =>
    intro g s hf hg
    cases s with
    | nil => cases g <;> rfl
    | cons c rest =>
      cases g with
      | zero => simp at hg
      | succ g =>
        simp only [removeOccAux]
        by_cases h : pat ≠ [] ∧ pat.isPrefixOf (c :: rest)
        · simp only [if_pos h]
          have hp : 1 ≤ pat.length := List.length_pos.mpr h.1
          apply ih
          · simp only [List.length_drop, List.length_cons]
            simp at hf
            omega
          · simp only [List.length_drop, List.length_cons]
            simp at hg
            omega
        · simp only [if_neg h]
          rw [ih g rest (by simp at hf; omega) (by simp at hg; omega)]

theorem removeOcc_cons (pat : List Char) (c : Char) (rest : List Char) :
    removeOcc pat (c :: rest) =
      if pat ≠ [] ∧ pat.isPrefixOf (c :: rest) then
        removeOcc pat ((c :: rest).drop pat.length)
      else c :: removeOcc pat rest := by
  unfold removeOcc
  simp only [List.length_cons, removeOccAux]
  by_cases h : pat ≠ [] ∧ pat.isPrefixOf (c :: rest)
  · simp only [if_pos h]
    have hp : 1 ≤ pat.length := List.length_pos.mpr h.1
    apply removeOccAux_congr
    · simp only [List.length_drop, List.length_cons]; omega
    · exact le_rfl
  · simp only [if_neg h]

theorem removeOcc_head_ne (a : Char) (t s : List Char) (h : ∀ c ∈ s, c ≠ a) :
    removeOcc (a :: t) s = s := by
  induction s with
  | nil => rfl
  | cons c rest ih =>
    rw [removeOcc_cons]
    have hac : ¬ (a :: t).isPrefixOf (c :: rest) = true := by
      simp only [List.isPrefixOf, Bool.and_eq_true, beq_iff_eq]
      intro hx
      exact h c (by simp) hx.1.symm
    rw [if_neg (by simp [hac])]
    rw [ih (fun x hx => h x (by simp [hx]))]

theorem removeOcc_append_self (p rest : List Char) (hp : p ≠ []) :
    removeOcc p (p ++ rest) = removeOcc p rest := by
  cases p with
  | nil => exact absurd rfl hp
  | cons a t =>
    rw [List.cons_append, removeOcc_cons]
    have hpre : (a :: t).isPrefixOf (a :: (t ++ rest)) := by
      rw [← List.cons_append]
      exact List.isPrefixOf_iff_prefix.mpr (List.prefix_append _ _)
    rw [if_pos ⟨by simp, hpre⟩]
    rw [← List.cons_append, List.drop_left]

theorem removeOcc_singleton (a : Char) (s : List Char) :
    removeOcc [a] s = s.filter (fun c => c != a) := by
  induction s with
  | nil => rfl
  | cons c rest ih =>
    rw [removeOcc_cons]
    by_cases h : a = c
    · subst h
      rw [if_pos ⟨by simp, by simp [List.isPrefixOf]⟩]
      rw [show (a :: rest).drop [a].length = rest from rfl]
      rw [ih]
      simp [List.filter]
    · have hpre : ¬ [a].isPrefixOf (c :: rest) = true := by
        simp only [List.isPrefixOf, Bool.and_eq_true, beq_iff_eq]
        intro hx
        exact h hx.1
      rw [if_neg (by simp [hpre])]
      rw [ih]
      have hcne : (c != a) = true := bne_iff_ne.mpr (fun he => h he.symm)
      simp [List.filter, hcne]

/-! ## Lemmas about trimming and lowercasing -/

theorem dropWhile_eq_self (p : Char → Bool) (s : List Char)
    (h : ∀ c ∈ s, p c = false) : s.dropWhile p = s := by
  cases s with
  | nil => rfl
  | cons c rest => simp [List.dropWhile, h c (by simp)]

theorem trimWs_eq_self (s : List Char) (h : ∀ c ∈ s, isWs c = false) :
    trimWs s = s := by
  unfold trimWs
  rw [dropWhile_eq_self _ _ h,
      dropWhile_eq_self _ _ (fun c hc => h c (List.mem_reverse.mp hc)),
      List.reverse_reverse]

theorem trimWs_eq_self_of_ends (a b : Char) (m : List Char)
    (ha : isWs a = false) (hb : isWs b = false) :
    trimWs (a :: (m ++ [b])) = a :: (m ++ [b]) := by
  unfold trimWs
  rw [List.dropWhile_cons_of_neg (by simp [ha])]
  rw [show (a :: (m ++ [b])).reverse = b :: (m.reverse ++ [a]) from by simp]
  rw [List.dropWhile_cons_of_neg (by simp [hb])]
  simp

theorem asciiLower_eq_self (s : List Char) (h : ∀ c ∈ s, lowerChar c = c) :
    asciiLower s = s := by
  unfold asciiLower
  rw [List.map_congr_left h]
  simp

theorem dropWhile_replicate_append (p : Char → Bool) (a : Char) (k : Nat)
    (r : List Char) (h : p a = true) :
    (List.replicate k a ++ r).dropWhile p = r.dropWhile p := by
  induction k with
  | zero => simp
  | succ k ih => simp [List.replicate_succ, List.dropWhile, h, ih]

theorem trimEndPercent_append_replicate (D : List Char) (k : Nat)
    (hD : ∀ c ∈ D, (c == '%') = false) :
    trimEndPercent (D ++ List.replicate k '%') = D := by
  unfold trimEndPercent
  rw [List.reverse_append, List.reverse_replicate]
  rw [dropWhile_replicate_append _ _ _ _ (by simp)]
  rw [dropWhile_eq_self _ _ (fun c hc => hD c (List.mem_reverse.mp hc)),
      List.reverse_reverse]

/-! ## Character-class facts -/

theorem decDigit_facts (c : Char) (hc : c ∈ decDigits) :
    isWs c = false ∧ lowerChar c = c ∧ c ≠ ',' ∧ (c == '%') = false ∧
      c ≠ ')' ∧ c ≠ 'h' ∧ (c != ')') = true := by
  fin_cases hc <;> decide

theorem isAsciiDigit_toNat (c : Char) (hc : isAsciiDigit c = true) :
    48 ≤ c.toNat ∧ c.toNat ≤ 57 := by
  simpa [isAsciiDigit, Bool.and_eq_true, decide_eq_true_eq] using hc

theorem isWs_toNat (c : Char) (hc : isWs c = true) :
    c.toNat = 9 ∨ c.toNat = 10 ∨ c.toNat = 11 ∨ c.toNat = 12 ∨ c.toNat = 13 ∨
    c.toNat = 32 ∨ c.toNat = 0x85 ∨ c.toNat = 0xA0 ∨ c.toNat = 0x1680 ∨
    (0x2000 ≤ c.toNat ∧ c.toNat ≤ 0x200A) ∨ c.toNat = 0x2028 ∨
    c.toNat = 0x2029 ∨ c.toNat = 0x202F ∨ c.toNat = 0x205F ∨ c.toNat = 0x3000 := by
  have := hc
  simp only [isWs, Bool.or_eq_true, Bool.and_eq_true, beq_iff_eq,
    decide_eq_true_eq] at this
  tauto

theorem lowerChar_eq_self_of_toNat (c : Char) (h : ¬ (65 ≤ c.toNat ∧ c.toNat ≤ 90)) :
    lowerChar c = c := by
  simp [lowerChar, h]

theorem isAsciiDigit_facts (c : Char) (hc : isAsciiDigit c = true) :
    isWs c = false ∧ lowerChar c = c ∧ c ≠ 'h' ∧ c ≠ ')' ∧ (c != ')') = true := by
  have hn := isAsciiDigit_toNat c hc
  refine ⟨?_, lowerChar_eq_self_of_toNat c (by omega), ?_, ?_, ?_⟩
  · cases hw : isWs c
    · rfl
    · have := isWs_toNat c hw
      omega
  · intro he; rw [he] at hc; exact absurd hc (by decide)
  · intro he; rw [he] at hc; exact absurd hc (by decide)
  · refine bne_iff_ne.mpr ?_
    intro he; rw [he] at hc; exact absurd hc (by decide)

theorem isWs_facts (c : Char) (hw : isWs c = true) :
    lowerChar c = c ∧ c ≠ 'h' ∧ c ≠ ')' ∧ (c != ')') = true := by
  have hn := isWs_toNat c hw
  refine ⟨lowerChar_eq_self_of_toNat c (by omega), ?_, ?_, ?_⟩
  · intro he; rw [he] at hw; exact absurd hw (by decide)
  · intro he; rw [he] at hw; exact absurd hw (by decide)
  · refine bne_iff_ne.mpr ?_
    intro he; rw [he] at hw; exact absurd hw (by decide)

/-! ## The generic parse-of-formatted-string lemma

`tryFromStr_shape` evaluates the string parser on any well-formed
`hsl(<a><%*>,<b><%*>,<c><%*>)` string: the result is exactly what the
tuple constructor yields on `(a, b, c)`. -/

theorem fieldChars (n k : Nat) :
    ∀ x ∈ natToChars n ++ List.replicate k '%', x ∈ decDigits ∨ x = '%' := by
  intro x hx
  rcases List.mem_append.mp hx with hd | hp
  · exact Or.inl (natToChars_mem n x hd)
  · exact Or.inr (List.eq_of_mem_replicate hp)

theorem field_parse (n k : Nat) (hn : n < 2 ^ 32) :
    parseU32 (trimEndPercent (trimWs (natToChars n ++ List.replicate k '%'))) = some n := by
  have h1 : trimWs (natToChars n ++ List.replicate k '%') =
      natToChars n ++ List.replicate k '%' := by
    apply trimWs_eq_self
    intro x hx
    rcases fieldChars n k x hx with hd | hpc
    · exact (decDigit_facts x hd).1
    · rw [hpc]; decide
  have h2 : trimEndPercent (natToChars n ++ List.replicate k '%') = natToChars n := by
    apply trimEndPercent_append_replicate
    intro x hx
    exact (decDigit_facts x (natToChars_mem n x hx)).2.2.2.1
  rw [h1, h2]
  exact parseU32_natToChars n hn

theorem field_no_comma (n k : Nat) :
    ∀ x ∈ natToChars n ++ List.replicate k '%', x ≠ ',' := by
  intro x hx
  rcases fieldChars n k x hx with hd | hpc
  · exact (decDigit_facts x hd).2.2.1
  · rw [hpc]; decide

theorem tryFromStr_body (B f1 f2 f3 : List Char) (a b c : Nat)
    (hfacts : ∀ x ∈ B, lowerChar x = x ∧ x ≠ 'h' ∧ (x != ')') = true)
    (hsplit : splitComma B = [f1, f2, f3])
    (hp1 : parseU32 (trimEndPercent (trimWs f1)) = some a)
    (hp2 : parseU32 (trimEndPercent (trimWs f2)) = some b)
    (hp3 : parseU32 (trimEndPercent (trimWs f3)) = some c) :
    HSL.tryFromStr (("hsl(".toList ++ B) ++ [')']) = HSL.tryFromTuple (a, b, c) := by
  have htrim : trimWs (("hsl(".toList ++ B) ++ [')']) = ("hsl(".toList ++ B) ++ [')'] := by
    have hsh : ("hsl(".toList ++ B) ++ [')'] = 'h' :: ((['s', 'l', '('] ++ B) ++ [')']) := by
      simp [show "hsl(".toList = ['h', 's', 'l', '('] from rfl]
    rw [hsh, trimWs_eq_self_of_ends 'h' ')' (['s', 'l', '('] ++ B) (by decide) (by decide)]
  have hlow : asciiLower (("hsl(".toList ++ B) ++ [')']) = ("hsl(".toList ++ B) ++ [')'] := by
    apply asciiLower_eq_self
    intro x hx
    rcases List.mem_append.mp hx with h1 | h2
    · rcases List.mem_append.mp h1 with hfr | hB2
      · rw [show "hsl(".toList = ['h', 's', 'l', '('] from rfl] at hfr
        fin_cases hfr <;> decide
      · exact (hfacts x hB2).1
    · rw [List.mem_singleton.mp h2]; decide
  have hpre : "hsl(".toList.isPrefixOf (("hsl(".toList ++ B) ++ [')']) := by
    rw [List.append_assoc]
    exact List.isPrefixOf_iff_prefix.mpr (List.prefix_append _ _)
  have hsuf : [')'].isSuffixOf (("hsl(".toList ++ B) ++ [')']) :=
    List.isSuffixOf_iff_suffix.mpr ⟨"hsl(".toList ++ B, rfl⟩
  have hro1 : removeOcc "hsl(".toList (("hsl(".toList ++ B) ++ [')']) = B ++ [')'] := by
    rw [List.append_assoc, removeOcc_append_self _ _ (by decide)]
    rw [show "hsl(".toList = 'h' :: ['s', 'l', '('] from rfl]
    apply removeOcc_head_ne
    intro x hx
    rcases List.mem_append.mp hx with hB2 | h2
    · exact (hfacts x hB2).2.1
    · rw [List.mem_singleton.mp h2]; decide
  have hro2 : removeOcc [')'] (B ++ [')']) = B := by
    rw [removeOcc_singleton, List.filter_append,
        List.filter_eq_self.mpr (fun x hx => (hfacts x hx).2.2)]
    simp
  simp only [HSL.tryFromStr]
  rw [htrim, hlow, if_pos ⟨hpre, hsuf⟩, hro1, hro2, hsplit]
  rw [if_pos (by simp : ([f1, f2, f3] : List (List Char)).length = 3)]
  simp only [List.map_cons, List.map_nil]
  rw [hp1, hp2, hp3]
  simp

theorem tryFromStr_shape (a b c k1 k2 k3 : Nat)
    (ha : a < 2 ^ 32) (hb : b < 2 ^ 32) (hc : c < 2 ^ 32) :
    HSL.tryFromStr ("hsl(".toList ++
        ((natToChars a ++ List.replicate k1 '%') ++
          ',' :: ((natToChars b ++ List.replicate k2 '%') ++
            ',' :: (natToChars c ++ List.replicate k3 '%'))) ++ [')'])
      = HSL.tryFromTuple (a, b, c) := by
  set F1 := natToChars a ++ List.replicate k1 '%' with hF1
  set F2 := natToChars b ++ List.replicate k2 '%' with hF2
  set F3 := natToChars c ++ List.replicate k3 '%' with hF3
  set B := F1 ++ ',' :: (F2 ++ ',' :: F3) with hB
  have hclass : ∀ x ∈ B, x ∈ decDigits ∨ x = '%' ∨ x = ',' := by
    intro x hx
    rw [hB] at hx
    rcases List.mem_append.mp hx with h1 | h2
    · rcases fieldChars a k1 x (hF1 ▸ h1) with hd | hpc
      · exact Or.inl hd
      · exact Or.inr (Or.inl hpc)
    · rcases List.mem_cons.mp h2 with hcm | h3
      · exact Or.inr (Or.inr hcm)
      · rcases List.mem_append.mp h3 with h4 | h5
        · rcases fieldChars b k2 x (hF2 ▸ h4) with hd | hpc
          · exact Or.inl hd
          · exact Or.inr (Or.inl hpc)
        · rcases List.mem_cons.mp h5 with hcm | h6
          · exact Or.inr (Or.inr hcm)
          · rcases fieldChars c k3 x (hF3 ▸ h6) with hd | hpc
            · exact Or.inl hd
            · exact Or.inr (Or.inl hpc)
  have hBfacts : ∀ x ∈ B, lowerChar x = x ∧ x ≠ 'h' ∧ (x != ')') = true := by
    intro x hx
    rcases hclass x hx with hd | hpc | hcm
    · obtain ⟨-, lo, -, -, -, hh, hne⟩ := decDigit_facts x hd
      exact ⟨lo, hh, hne⟩
    · rw [hpc]; exact ⟨by decide, by decide, by decide⟩
    · rw [hcm]; exact ⟨by decide, by decide, by decide⟩
  have hsplit : splitComma B = [F1, F2, F3] := by
    rw [hB, splitComma_append _ _ (hF1 ▸ field_no_comma a k1),
        splitComma_append _ _ (hF2 ▸ field_no_comma b k2),
        splitComma_no_comma _ (hF3 ▸ field_no_comma c k3)]
  exact tryFromStr_body B F1 F2 F3 a b c hBfacts hsplit
    (hF1 ▸ field_parse a k1 ha) (hF2 ▸ field_parse b k2 hb) (hF3 ▸ field_parse c k3 hc)

/-! ## Character provenance through the field parser (for the refinement claim) -/

theorem parseU32_chars (s : List Char) (v : Nat) (h : parseU32 s = some v) :
    ∀ x ∈ s, x = '+' ∨ isAsciiDigit x = true := by
  unfold parseU32 at h
  by_cases hcond : stripPlus s ≠ [] ∧ (stripPlus s).all isAsciiDigit
  · intro x hx
    unfold stripPlus at hcond
    by_cases hp : s.head? = some '+'
    · rw [if_pos hp] at hcond
      cases s with
      | nil => simp at hp
      | cons c0 rest =>
        have hc0 : c0 = '+' := by simpa using hp
        rcases List.mem_cons.mp hx with he | hr
        · left; rw [he, hc0]
        · right
          exact List.all_eq_true.mp hcond.2 x (by simpa using hr)
    · rw [if_neg hp] at hcond
      right; exact List.all_eq_true.mp hcond.2 x hx
  · rw [if_neg hcond] at h; simp at h

theorem mem_dropWhile_or (p : Char → Bool) (s : List Char) (x : Char) (hx : x ∈ s) :
    x ∈ s.dropWhile p ∨ p x = true := by
  induction s with
  | nil => cases hx
  | cons a rest ih =>
    by_cases hpa : p a = true
    · rcases List.mem_cons.mp hx with he | hr
      · right; rw [he]; exact hpa
      · rw [List.dropWhile_cons_of_pos hpa]; exact ih hr
    · rw [List.dropWhile_cons_of_neg (by simpa using hpa)]
      left; exact hx

theorem mem_trimWs_or (s : List Char) (x : Char) (hx : x ∈ s) :
    x ∈ trimWs s ∨ isWs x = true := by
  unfold trimWs
  rcases mem_dropWhile_or isWs s x hx with h1 | h1
  · rcases mem_dropWhile_or isWs (s.dropWhile isWs).reverse x (List.mem_reverse.mpr h1) with h2 | h2
    · left; exact List.mem_reverse.mpr h2
    · right; exact h2
  · right; exact h1

theorem mem_trimEndPercent_or (s : List Char) (x : Char) (hx : x ∈ s) :
    x ∈ trimEndPercent s ∨ x = '%' := by
  unfold trimEndPercent
  rcases mem_dropWhile_or (fun c => c == '%') s.reverse x (List.mem_reverse.mpr hx) with h1 | h1
  · left; exact List.mem_reverse.mpr h1
  · right; simpa using h1

theorem parsedField_chars (f : List Char) (v : Nat)
    (h : parseU32 (trimEndPercent (trimWs f)) = some v) :
    ∀ x ∈ f, x = '+' ∨ isAsciiDigit x = true ∨ x = '%' ∨ isWs x = true := by
  intro x hx
  rcases mem_trimWs_or f x hx with h1 | h1
  · rcases mem_trimEndPercent_or (trimWs f) x h1 with h2 | h2
    · rcases parseU32_chars _ v h x h2 with h3 | h3
      · exact Or.inl h3
      · exact Or.inr (Or.inl h3)
    · exact Or.inr (Or.inr (Or.inl h2))
  · exact Or.inr (Or.inr (Or.inr h1))

theorem fieldChar_facts (x : Char)
    (h : x = '+' ∨ isAsciiDigit x = true ∨ x = '%' ∨ isWs x = true) :
    lowerChar x = x ∧ x ≠ 'h' ∧ (x != ')') = true := by
  rcases h with he | hd | he | hw
  · rw [he]; exact ⟨by decide, by decide, by decide⟩
  · obtain ⟨-, lo, hh, -, hne⟩ := isAsciiDigit_facts x hd
    exact ⟨lo, hh, hne⟩
  · rw [he]; exact ⟨by decide, by decide, by decide⟩
  · obtain ⟨lo, hh, -, hne⟩ := isWs_facts x hw
    exact ⟨lo, hh, hne⟩

/-! ## Arithmetic lemmas for the mutators -/

theorem tmod_wrap_eq_emod (a : Int) :
    (if a.tmod 360 < 0 then 360 + a.tmod 360 else a.tmod 360) = a % 360 := by
  have h1 := Int.tmod_add_tdiv a 360
  have h2 : a.tmod 360 < 360 := Int.tmod_lt_of_pos a (by norm_num)
  have h3 : -360 < a.tmod 360 := by
    cases a with
    | ofNat m =>
      have h0 : (0 : Int) ≤ (Int.ofNat m).tmod 360 :=
        Int.tmod_nonneg 360 (Int.ofNat_nonneg m)
      omega
    | negSucc m =>
      have he : (Int.negSucc m).tmod 360 = -Int.ofNat ((m + 1) % 360) := rfl
      have hb : (m + 1) % 360 < 360 := Nat.mod_lt _ (by norm_num)
      rw [he, Int.ofNat_eq_natCast]
      omega
  split <;> omega

theorem rne_le_int (x : ℚ) (M : ℤ) (h : x ≤ (M : ℚ)) : rne x ≤ M := by
  have hfl : ⌊x⌋ ≤ M := by
    have h1 := Int.floor_le_floor h
    rwa [Int.floor_intCast] at h1
  unfold rne
  by_cases h1 : x - ⌊x⌋ < 1 / 2
  · rw [if_pos h1]; exact hfl
  · rw [if_neg h1]
    have hlt : ⌊x⌋ < M := by
      rcases eq_or_lt_of_le hfl with heq | hlt
      · exfalso
        have hxle : x ≤ ((⌊x⌋ : ℤ) : ℚ) := by rw [heq]; exact h
        have hge : ((⌊x⌋ : ℤ) : ℚ) ≤ x := Int.floor_le x
        exact h1 (by linarith)
      · exact hlt
    by_cases h2 : 1 / 2 < x - ⌊x⌋
    · rw [if_pos h2]; omega
    · rw [if_neg h2]
      by_cases h3 : ⌊x⌋ % 2 = 0
      · rw [if_pos h3]; omega
      · rw [if_neg h3]; omega

theorem rne_nonneg (x : ℚ) (h : 0 ≤ x) : 0 ≤ rne x := by
  have h0 : 0 ≤ ⌊x⌋ := Int.floor_nonneg.mpr h
  unfold rne
  by_cases h1 : x - ⌊x⌋ < 1 / 2
  · rw [if_pos h1]; exact h0
  · rw [if_neg h1]
    by_cases h2 : 1 / 2 < x - ⌊x⌋
    · rw [if_pos h2]; omega
    · rw [if_neg h2]
      by_cases h3 : ⌊x⌋ % 2 = 0
      · rw [if_pos h3]; exact h0
      · rw [if_neg h3]; omega

theorem rne_eval_low (x : ℚ) (n : ℤ) (h1 : (n : ℚ) ≤ x) (h2 : x < (n : ℚ) + 1 / 2) :
    rne x = n := by
  have hfl : ⌊x⌋ = n := by
    rw [Int.floor_eq_iff]
    exact ⟨h1, by push_cast; linarith⟩
  unfold rne
  rw [hfl, if_pos (by push_cast; linarith)]

theorem log2_unique (v : ℚ) (e : ℤ) (hv : 0 < v)
    (hlo : (2 : ℚ) ^ e ≤ v) (hhi : v < (2 : ℚ) ^ (e + 1)) : Int.log 2 v = e := by
  have hcast : ∀ z : ℤ, ((2 : ℕ) : ℚ) ^ z = (2 : ℚ) ^ z := by
    intro z; norm_num
  have h1 : e ≤ Int.log 2 v :=
    (Int.zpow_le_iff_le_log (by norm_num) hv).mp (by rw [hcast e]; exact hlo)
  have h2 : Int.log 2 v < e + 1 :=
    (Int.lt_zpow_iff_log_lt (by norm_num) hv).mp (by rw [hcast (e + 1)]; exact hhi)
  omega

theorem f32roundPos_nonneg (a : ℚ) (ha : 0 ≤ a) : 0 ≤ f32roundPos a := by
  unfold f32roundPos
  have hx : (0 : ℚ) ≤ a * 2 ^ (23 - Int.log 2 a) :=
    mul_nonneg ha (le_of_lt (zpow_pos (by norm_num) _))
  have h1 : (0 : ℚ) ≤ ((rne (a * 2 ^ (23 - Int.log 2 a)) : ℤ) : ℚ) := by
    exact_mod_cast rne_nonneg _ hx
  exact mul_nonneg h1 (le_of_lt (zpow_pos (by norm_num) _))

/-- The key soundness fact about rounding for the no-underflow claims:
round-to-nearest of a positive value bounded by a representable
integer `N < 2^24` stays bounded by `N`. -/
theorem f32roundPos_le_nat (v : ℚ) (N : ℕ) (hv : 0 < v) (hvN : v ≤ (N : ℚ))
    (hN : N < 2 ^ 24) : f32roundPos v ≤ (N : ℚ) := by
  unfold f32roundPos
  set e := Int.log 2 v with he
  have he23 : e ≤ 23 := by
    have h24 : v < ((2 : ℕ) : ℚ) ^ (24 : ℤ) := by
      have hNq : (N : ℚ) < 16777216 := by exact_mod_cast hN
      have hpow : ((2 : ℕ) : ℚ) ^ (24 : ℤ) = 16777216 := by norm_num
      linarith
    have := (Int.lt_zpow_iff_log_lt (by norm_num) hv).mp h24
    omega
  set k := (23 - e).toNat with hk
  have hk23 : (23 : ℤ) - e = (k : ℤ) := by omega
  rw [hk23, zpow_natCast]
  have hMbound : rne (v * 2 ^ k) ≤ ((N * 2 ^ k : ℕ) : ℤ) := by
    apply rne_le_int
    have h2k : (0 : ℚ) ≤ (2 : ℚ) ^ k := by positivity
    have hmul : v * (2 : ℚ) ^ k ≤ (N : ℚ) * 2 ^ k :=
      mul_le_mul_of_nonneg_right hvN h2k
    push_cast
    linarith
  have hpos : (0 : ℚ) < (2 : ℚ) ^ (e - (23 : ℤ)) := zpow_pos (by norm_num) _
  calc ((rne (v * 2 ^ k) : ℤ) : ℚ) * 2 ^ (e - (23 : ℤ))
      ≤ (((N * 2 ^ k : ℕ) : ℤ) : ℚ) * 2 ^ (e - (23 : ℤ)) := by
        apply mul_le_mul_of_nonneg_right _ (le_of_lt hpos)
        exact_mod_cast hMbound
    _ = (N : ℚ) := by
        push_cast
        rw [mul_assoc, ← zpow_natCast (2 : ℚ) k,
          ← zpow_add₀ (by norm_num : (2 : ℚ) ≠ 0)]
        rw [show (k : ℤ) + (e - 23) = 0 from by omega]
        simp

theorem f32round_nonpos (q : ℚ) (hq : q ≤ 0) : f32round q ≤ 0 := by
  unfold f32round
  rw [if_pos hq]
  have := f32roundPos_nonneg (-q) (by linarith)
  linarith

theorem castU32_nonpos (w : ℚ) (hw : w ≤ 0) : castU32 w = 0 := by
  unfold castU32
  rcases lt_or_eq_of_le hw with hlt | heq
  · rw [if_pos hlt]
  · subst heq
    rw [if_neg (by norm_num)]
    simp

/-- No-overflow bound for the truncated cast of the rounded product:
for any ratio at most 1, `(l as f32 * ratio) as u32` is at most `l`.
Monotonicity of round-to-nearest below the exactly representable bound
`l` is `f32roundPos_le_nat`. -/
theorem castU32_f32_le (l : Nat) (q : ℚ) (hl : l ≤ 100) (h1 : q ≤ 1) :
    castU32 (f32round ((l : ℚ) * q)) ≤ l := by
  by_cases hq : (l : ℚ) * q ≤ 0
  · rw [castU32_nonpos _ (f32round_nonpos _ hq)]
    omega
  · push_neg at hq
    have hl0 : (0 : ℚ) < (l : ℚ) := by
      rcases Nat.eq_zero_or_pos l with rfl | hp
      · simp at hq
      · exact_mod_cast hp
    have hql : (l : ℚ) * q ≤ (l : ℚ) := by
      calc (l : ℚ) * q ≤ (l : ℚ) * 1 := mul_le_mul_of_nonneg_left h1 (le_of_lt hl0)
      _ = (l : ℚ) := mul_one _
    have hfr : f32round ((l : ℚ) * q) = f32roundPos ((l : ℚ) * q) := by
      unfold f32round
      rw [if_neg (not_le.mpr hq)]
    have hle := f32roundPos_le_nat ((l : ℚ) * q) l hq hql (by omega)
    have hnn := f32roundPos_nonneg ((l : ℚ) * q) (le_of_lt hq)
    unfold castU32
    rw [hfr, if_neg (not_lt.mpr hnn)]
    have hfl : ⌊f32roundPos ((l : ℚ) * q)⌋ ≤ (l : ℤ) := by
      have h := Int.floor_le_floor hle
      rwa [Int.floor_natCast] at h
    omega

/-- Evaluate `f32round` at a concrete positive value from its binade
bounds and the rounded scaled mantissa. -/
theorem f32round_eval (v : ℚ) (e n : ℤ) (r : ℚ) (hv : 0 < v)
    (hlo : (2 : ℚ) ^ e ≤ v) (hhi : v < (2 : ℚ) ^ (e + 1))
    (hrne : rne (v * 2 ^ (23 - e)) = n)
    (hres : (n : ℚ) * 2 ^ (e - 23) = r) :
    f32round v = r := by
  unfold f32round
  rw [if_neg (not_le.mpr hv)]
  unfold f32roundPos
  rw [log2_unique v e hv hlo hhi, hrne, hres]

theorem castU32_eval (w : ℚ) (N : ℕ) (hw : 0 ≤ w) (hfl : ⌊w⌋ = (N : ℤ))
    (hN : N < 2 ^ 32) : castU32 w = N := by
  unfold castU32
  rw [if_neg (not_lt.mpr hw), hfl, Int.toNat_natCast]
  omega

theorem castU32_f32round_eval (v : ℚ) (e n : ℤ) (r : ℚ) (N : ℕ) (hv : 0 < v)
    (hlo : (2 : ℚ) ^ e ≤ v) (hhi : v < (2 : ℚ) ^ (e + 1))
    (hrne : rne (v * 2 ^ (23 - e)) = n)
    (hres : (n : ℚ) * 2 ^ (e - 23) = r)
    (hr : 0 ≤ r) (hfl : ⌊r⌋ = (N : ℤ)) (hN : N < 2 ^ 32) :
    castU32 (f32round v) = N := by
  rw [f32round_eval v e n r hv hlo hhi hrne hres]
  exact castU32_eval r N hr hfl hN

theorem darken_eq (x : HSL) (q : ℚ) (hx : x.valid) (h1 : q ≤ 1) :
    HSL.darken x q = some ⟨x.h, x.s, x.l - castU32 (f32round ((x.l : ℚ) * q))⟩ := by
  have ht := castU32_f32_le x.l q hx.2.2 h1
  have h100 := hx.2.2
  simp only [HSL.darken]
  rw [if_pos ht]
  rw [show min (max (x.l - castU32 (f32round ((x.l : ℚ) * q))) 0) 100 =
      x.l - castU32 (f32round ((x.l : ℚ) * q)) from by omega]

theorem lighten_eq (x : HSL) (q : ℚ) (hx : x.valid) (h1 : q ≤ 1) :
    HSL.lighten x q = some ⟨x.h, x.s, min (x.l + castU32 (f32round ((x.l : ℚ) * q))) 100⟩ := by
  have ht := castU32_f32_le x.l q hx.2.2 h1
  have h100 := hx.2.2
  simp only [HSL.lighten]
  rw [if_pos (by omega)]
  rw [show min (max (x.l + castU32 (f32round ((x.l : ℚ) * q))) 0) 100 =
      min (x.l + castU32 (f32round ((x.l : ℚ) * q))) 100 from by omega]

theorem rotate_eq (x : HSL) (d : Int) (hx : x.valid)
    (hlo : -(2 ^ 31) ≤ d) (hhi : (x.h : Int) + d < 2 ^ 31) :
    HSL.rotate x d = some ⟨(((x.h : Int) + d) % 360).toNat, x.s, x.l⟩ := by
  simp only [HSL.rotate]
  rw [if_pos ⟨by omega, hhi⟩]
  rw [tmod_wrap_eq_emod ((x.h : Int) + d)]

/-- The range check of the tuple constructor, with the pair
projections reduced. -/
theorem tryFromTuple_red (h s l : Nat) :
    HSL.tryFromTuple (h, s, l) =
      if ¬ (0 ≤ h ∧ h ≤ 360) ∨ ¬ (0 ≤ s ∧ s ≤ 100) ∨ ¬ (0 ≤ l ∧ l ≤ 100) then
        .error (.ValueErr (h, s, l))
      else .ok ⟨h, s, l⟩ := rfl

theorem tryFromTuple_ok (h s l : Nat) (h1 : h ≤ 360) (h2 : s ≤ 100) (h3 : l ≤ 100) :
    HSL.tryFromTuple (h, s, l) = .ok ⟨h, s, l⟩ := by
  rw [tryFromTuple_red, if_neg (by omega)]

/-! ## The claims -/

/-- C1: for every tuple `(h, s, l)` of unsigned integers,
`HSL::try_from((h,s,l))` returns a value error exactly when `h > 360`
or `s > 100` or `l > 100`; otherwise it succeeds and the constructed
`HSL` stores `h`, `s`, `l` unchanged. -/
theorem hsl_tryFromTuple_spec (h s l : Nat) :
    (HSL.tryFromTuple (h, s, l) = .error (.ValueErr (h, s, l)) ↔
      360 < h ∨ 100 < s ∨ 100 < l) ∧
    (h ≤ 360 → s ≤ 100 → l ≤ 100 → HSL.tryFromTuple (h, s, l) = .ok ⟨h, s, l⟩) := by
  rw [tryFromTuple_red]
  by_cases hcond : ¬ (0 ≤ h ∧ h ≤ 360) ∨ ¬ (0 ≤ s ∧ s ≤ 100) ∨ ¬ (0 ≤ l ∧ l ≤ 100)
  · rw [if_pos hcond]
    refine ⟨⟨fun _ => by omega, fun _ => rfl⟩, ?_⟩
    intro h1 h2 h3
    exact absurd hcond (by omega)
  · rw [if_neg hcond]
    refine ⟨⟨fun heq => by simp at heq, fun hgt => absurd hgt (by omega)⟩, ?_⟩
    intro h1 h2 h3
    rfl

/-- Witness for C1: the range check rejects `(361,0,0)` with a value
error and accepts `(120,100,50)` unchanged. -/
theorem hsl_tryFromTuple_spec_witness :
    HSL.tryFromTuple (361, 0, 0) = .error (.ValueErr (361, 0, 0)) ∧
    HSL.tryFromTuple (120, 100, 50) = .ok ⟨120, 100, 50⟩ :=
  ⟨(hsl_tryFromTuple_spec 361 0 0).1.mpr (by omega),
   (hsl_tryFromTuple_spec 120 100 50).2 (by omega) (by omega) (by omega)⟩

/-- C8: for every valid HSL value and argument, `set_hue` clamps to
`min(x, 360)` and `set_saturation`/`set_lightness` clamp to
`min(x, 100)`, leaving the other two fields unchanged; the setters are
total functions (they never fail). -/
theorem hsl_setters_clamp (x : HSL) (hx : x.valid) (n : Nat) :
    x.set_hue n = ⟨min n 360, x.s, x.l⟩ ∧
    x.set_saturation n = ⟨x.h, min n 100, x.l⟩ ∧
    x.set_lightness n = ⟨x.h, x.s, min n 100⟩ :=
  ⟨rfl, rfl, rfl⟩

/-- Witness for C8 at `(120,100,50)` with out-of-range arguments. -/
theorem hsl_setters_clamp_witness :
    HSL.set_hue ⟨120, 100, 50⟩ 500 = ⟨360, 100, 50⟩ ∧
    HSL.set_saturation ⟨120, 100, 50⟩ 500 = ⟨120, 100, 50⟩ ∧
    HSL.set_lightness ⟨120, 100, 50⟩ 7 = ⟨120, 100, 7⟩ := by
  refine ⟨?_, ?_, ?_⟩
  · have h := (hsl_setters_clamp ⟨120, 100, 50⟩ (by decide) 500).1
    simpa using h
  · have h := (hsl_setters_clamp ⟨120, 100, 50⟩ (by decide) 500).2.1
    simpa using h
  · have h := (hsl_setters_clamp ⟨120, 100, 50⟩ (by decide) 7).2.2
    simpa using h

/-- C6: `hsl(262,85%,79%)` parses successfully; `hsl(361,0%,0%)` fails
with a value error; `hsl(10,20%)` fails with a format error. -/
theorem hsl_parse_examples :
    HSL.tryFromStr ("hsl(262,85%,79%)".toList) = .ok ⟨262, 85, 79⟩ ∧
    HSL.tryFromStr ("hsl(361,0%,0%)".toList) = .error (.ValueErr (361, 0, 0)) ∧
    HSL.tryFromStr ("hsl(10,20%)".toList) = .error (.FormatErr ("hsl(10,20%)".toList)) := by
  decide

/-- C2: for every valid HSL value `x`, parsing the string produced by
formatting `x` succeeds and yields a value equal to `x`. -/
theorem hsl_parse_toChars_roundtrip (x : HSL) (hx : x.valid) :
    HSL.tryFromStr x.toChars = .ok x := by
  obtain ⟨h, s, l⟩ := x
  obtain ⟨h1, h2, h3⟩ := hx
  have hh : h ≤ 360 := h1
  have hs : s ≤ 100 := h2
  have hl : l ≤ 100 := h3
  have hshape : HSL.toChars ⟨h, s, l⟩ =
      "hsl(".toList ++
        ((natToChars h ++ List.replicate 0 '%') ++
          ',' :: ((natToChars s ++ List.replicate 1 '%') ++
            ',' :: (natToChars l ++ List.replicate 1 '%'))) ++ [')'] := by
    simp [HSL.toChars, show "%,".toList = ['%', ','] from rfl,
      show "%)".toList = ['%', ')'] from rfl]
  rw [hshape, tryFromStr_shape h s l 0 1 1 (by omega) (by omega) (by omega)]
  exact tryFromTuple_ok h s l hh hs hl

/-- Witness for C2 at the valid value `(262,85,79)`. -/
theorem hsl_parse_toChars_roundtrip_witness :
    HSL.tryFromStr (HSL.toChars ⟨262, 85, 79⟩) = .ok ⟨262, 85, 79⟩ :=
  hsl_parse_toChars_roundtrip ⟨262, 85, 79⟩ (by decide)

/-- C10: the parser is lenient about percent signs: for all in-range
`a`, `b`, `c`, the strings `hsl(a,b,c)` and `hsl(a%,b%,c%)` both parse
successfully to the same value as the canonical `hsl(a,b%,c%)`. -/
theorem hsl_parse_percent_lenient (a b c : Nat)
    (h1 : a ≤ 360) (h2 : b ≤ 100) (h3 : c ≤ 100) :
    HSL.tryFromStr ("hsl(".toList ++ natToChars a ++ [','] ++ natToChars b ++ [','] ++
        natToChars c ++ [')']) = .ok ⟨a, b, c⟩ ∧
    HSL.tryFromStr ("hsl(".toList ++ natToChars a ++ "%,".toList ++ natToChars b ++ "%,".toList ++
        natToChars c ++ "%)".toList) = .ok ⟨a, b, c⟩ ∧
    HSL.tryFromStr ("hsl(".toList ++ natToChars a ++ [','] ++ natToChars b ++ "%,".toList ++
        natToChars c ++ "%)".toList) = .ok ⟨a, b, c⟩ := by
  have hok : HSL.tryFromTuple (a, b, c) = .ok ⟨a, b, c⟩ := tryFromTuple_ok a b c h1 h2 h3
  refine ⟨?_, ?_, ?_⟩
  · have hs0 := tryFromStr_shape a b c 0 0 0 (by omega) (by omega) (by omega)
    rw [show "hsl(".toList ++ natToChars a ++ [','] ++ natToChars b ++ [','] ++
          natToChars c ++ [')'] =
        "hsl(".toList ++
          ((natToChars a ++ List.replicate 0 '%') ++
            ',' :: ((natToChars b ++ List.replicate 0 '%') ++
              ',' :: (natToChars c ++ List.replicate 0 '%'))) ++ [')'] from by simp]
    rw [hs0, hok]
  · have hs1 := tryFromStr_shape a b c 1 1 1 (by omega) (by omega) (by omega)
    rw [show "hsl(".toList ++ natToChars a ++ "%,".toList ++ natToChars b ++ "%,".toList ++
          natToChars c ++ "%)".toList =
        "hsl(".toList ++
          ((natToChars a ++ List.replicate 1 '%') ++
            ',' :: ((natToChars b ++ List.replicate 1 '%') ++
              ',' :: (natToChars c ++ List.replicate 1 '%'))) ++ [')'] from by
      simp [show "%,".toList = ['%', ','] from rfl, show "%)".toList = ['%', ')'] from rfl]]
    rw [hs1, hok]
  · have hs2 := tryFromStr_shape a b c 0 1 1 (by omega) (by omega) (by omega)
    rw [show "hsl(".toList ++ natToChars a ++ [','] ++ natToChars b ++ "%,".toList ++
          natToChars c ++ "%)".toList =
        "hsl(".toList ++
          ((natToChars a ++ List.replicate 0 '%') ++
            ',' :: ((natToChars b ++ List.replicate 1 '%') ++
              ',' :: (natToChars c ++ List.replicate 1 '%'))) ++ [')'] from by
      simp [show "%,".toList = ['%', ','] from rfl, show "%)".toList = ['%', ')'] from rfl]]
    rw [hs2, hok]

/-- Witness for C10 at `(12,34,56)`: all three spellings parse to the
same value. -/
theorem hsl_parse_percent_lenient_witness :
    HSL.tryFromStr ("hsl(12,34,56)".toList) = .ok ⟨12, 34, 56⟩ ∧
    HSL.tryFromStr ("hsl(12%,34%,56%)".toList) = .ok ⟨12, 34, 56⟩ ∧
    HSL.tryFromStr ("hsl(12,34%,56%)".toList) = .ok ⟨12, 34, 56⟩ := by
  have h := hsl_parse_percent_lenient 12 34 56 (by omega) (by omega) (by omega)
  exact ⟨h.1, h.2.1, h.2.2⟩

/-- C7: every input string that passes the syntactic phase of HSL
string parsing (prefix `hsl(`, suffix `)`, exactly three
comma-separated fields each parsing as an unsigned integer after
trimming and stripping trailing `%`) is handled by deferring to the
tuple constructor on the three parsed integers, so the string and
tuple entry points share one range check. -/
theorem hsl_parse_refines_tuple (inp : List Char) (a b c : Nat)
    (hsp : specSyntacticPhase inp = some (a, b, c)) :
    HSL.tryFromStr inp = HSL.tryFromTuple (a, b, c) := by
  unfold specSyntacticPhase at hsp
  by_cases hcond : "hsl(".toList.isPrefixOf inp ∧ [')'].isSuffixOf inp
  case neg => rw [if_neg hcond] at hsp; exact absurd hsp (by simp)
  rw [if_pos hcond] at hsp
  obtain ⟨hpre, hsuf⟩ := hcond
  obtain ⟨rest, hrest⟩ : ∃ rest, "hsl(".toList ++ rest = inp :=
    List.isPrefixOf_iff_prefix.mp hpre
  rcases List.eq_nil_or_concat rest with rfl | ⟨body, bc, rfl⟩
  · rw [← hrest] at hsuf
    exact absurd hsuf (by decide)
  · rw [List.concat_eq_append] at hrest
    have hb : bc = ')' := by
      obtain ⟨pre, hpe⟩ := List.isSuffixOf_iff_suffix.mp hsuf
      have hg1 : inp.getLast? = some ')' := by
        rw [← hpe]; exact List.getLast?_concat _
      have hg2 : inp.getLast? = some bc := by
        rw [← hrest,
          show "hsl(".toList ++ (body ++ [bc]) = ("hsl(".toList ++ body) ++ [bc] from by simp]
        exact List.getLast?_concat _
      rw [hg1] at hg2
      exact (Option.some.inj hg2).symm
    subst hb
    have hdrop : (inp.drop 4).dropLast = body := by
      rw [← hrest, show (4 : Nat) = "hsl(".toList.length from rfl, List.drop_left]
      exact List.dropLast_concat
    rw [hdrop] at hsp
    split at hsp
    case _ =>
      rename_i a0 b0 c0 heq
      obtain ⟨rfl, rfl, rfl⟩ : a0 = a ∧ b0 = b ∧ c0 = c := by
        have := Option.some.inj hsp
        exact ⟨congrArg Prod.fst this,
          congrArg (fun p => p.2.1) this, congrArg (fun p => p.2.2) this⟩
      obtain ⟨f1, f2, f3, hsfields, hm1, hm2, hm3⟩ :
          ∃ f1 f2 f3, splitComma body = [f1, f2, f3] ∧
            parseU32 (trimEndPercent (trimWs f1)) = some a0 ∧
            parseU32 (trimEndPercent (trimWs f2)) = some b0 ∧
            parseU32 (trimEndPercent (trimWs f3)) = some c0 := by
        cases hsl : splitComma body with
        | nil => rw [hsl] at heq; simp at heq
        | cons f1 t1 =>
          cases t1 with
          | nil => rw [hsl] at heq; simp at heq
          | cons f2 t2 =>
            cases t2 with
            | nil => rw [hsl] at heq; simp at heq
            | cons f3 t3 =>
              cases t3 with
              | nil =>
                rw [hsl] at heq
                simp only [List.map_cons, List.map_nil, List.cons.injEq, and_true] at heq
                exact ⟨f1, f2, f3, rfl, heq.1, heq.2.1, heq.2.2⟩
              | cons f4 t4 => rw [hsl] at heq; simp at heq
      have hbodyfacts : ∀ x ∈ body, lowerChar x = x ∧ x ≠ 'h' ∧ (x != ')') = true := by
        intro x hx
        rcases mem_splitComma body x hx with rfl | ⟨f, hf, hxf⟩
        · exact ⟨by decide, by decide, by decide⟩
        · rw [hsfields] at hf
          rcases List.mem_cons.mp hf with rfl | hf2
          · exact fieldChar_facts x (parsedField_chars f a0 hm1 x hxf)
          · rcases List.mem_cons.mp hf2 with rfl | hf3
            · exact fieldChar_facts x (parsedField_chars f b0 hm2 x hxf)
            · rcases List.mem_cons.mp hf3 with rfl | hf4
              · exact fieldChar_facts x (parsedField_chars f c0 hm3 x hxf)
              · cases hf4
      rw [← hrest,
        show "hsl(".toList ++ (body ++ [')']) = ("hsl(".toList ++ body) ++ [')'] from by simp]
      exact tryFromStr_body body f1 f2 f3 a0 b0 c0 hbodyfacts hsfields hm1 hm2 hm3
    case _ => exact absurd hsp (by simp)

/-- Witness for C7 at `hsl(262,85%,79%)`, whose syntactic phase yields
`(262, 85, 79)`. -/
theorem hsl_parse_refines_tuple_witness :
    specSyntacticPhase ("hsl(262,85%,79%)".toList) = some (262, 85, 79) ∧
    HSL.tryFromStr ("hsl(262,85%,79%)".toList) = HSL.tryFromTuple (262, 85, 79) := by
  have h1 : specSyntacticPhase ("hsl(262,85%,79%)".toList) = some (262, 85, 79) := by decide
  exact ⟨h1, hsl_parse_refines_tuple _ 262 85 79 h1⟩

/-- C9: for every valid HSL value and ratio in `[0,1]`, the truncated
unsigned cast of the f32 product `l·ratio` (round-to-nearest-even of
the exact product) is at most `l`, so the subtraction inside darken
cannot underflow and the resulting lightness is at most the old
lightness. -/
theorem hsl_darken_no_underflow (x : HSL) (q : ℚ) (hx : x.valid)
    (h0 : 0 ≤ q) (h1 : q ≤ 1) :
    castU32 (f32round ((x.l : ℚ) * q)) ≤ x.l ∧
    ∃ y, HSL.darken x q = some y ∧ y.l ≤ x.l := by
  refine ⟨castU32_f32_le x.l q hx.2.2 h1, ⟨_, darken_eq x q hx h1, ?_⟩⟩
  show x.l - castU32 (f32round ((x.l : ℚ) * q)) ≤ x.l
  omega

/-- Witness for C9 at lightness 50 and ratio 1/2. -/
theorem hsl_darken_no_underflow_witness :
    castU32 (f32round (((⟨120, 100, 50⟩ : HSL).l : ℚ) * (1 / 2))) ≤ (⟨120, 100, 50⟩ : HSL).l ∧
    ∃ y, HSL.darken ⟨120, 100, 50⟩ (1 / 2) = some y ∧ y.l ≤ (⟨120, 100, 50⟩ : HSL).l :=
  hsl_darken_no_underflow ⟨120, 100, 50⟩ (1 / 2) (by decide) (by norm_num) (by norm_num)

/-- C4 (amended): for every valid HSL value and every `degrees` such
that `old hue + degrees` still fits in `i32`, rotate sets the hue to
`((old + degrees) mod 360)` normalized into `[0,360)` (negative
remainders wrapped by adding 360) and leaves saturation and lightness
unchanged.  At `degrees = 2^31 - 1` the `i32` addition itself
overflows (see the counterexample), which is the only change forced to
the original claim. -/
theorem hsl_rotate_amended (x : HSL) (d : Int) (hx : x.valid)
    (hlo : -(2 ^ 31) ≤ d) (hhi : (x.h : Int) + d < 2 ^ 31) :
    HSL.rotate x d = some ⟨(((x.h : Int) + d) % 360).toNat, x.s, x.l⟩ ∧
    (((x.h : Int) + d) % 360).toNat < 360 := by
  refine ⟨rotate_eq x d hx hlo hhi, ?_⟩
  have ha := Int.emod_nonneg ((x.h : Int) + d) (by norm_num : (360 : Int) ≠ 0)
  have hb := Int.emod_lt_of_pos ((x.h : Int) + d) (by norm_num : (0 : Int) < 360)
  omega

/-- Witness for C4: `rotate(60)` on hue 120 yields hue 180 and
`rotate(-150)` on hue 120 yields hue 330, saturation and lightness
untouched. -/
theorem hsl_rotate_amended_witness :
    HSL.rotate ⟨120, 100, 50⟩ 60 = some ⟨180, 100, 50⟩ ∧
    HSL.rotate ⟨120, 100, 50⟩ (-150) = some ⟨330, 100, 50⟩ := by
  have h1 := (hsl_rotate_amended ⟨120, 100, 50⟩ 60 (by decide) (by decide) (by decide)).1
  have h2 := (hsl_rotate_amended ⟨120, 100, 50⟩ (-150) (by decide) (by decide) (by decide)).1
  rw [h1, h2]
  constructor <;> decide

/-- Counterexample to C4 as stated: at `degrees = 2^31 - 1` (a legal
i32 value) the addition `self.h as i32 + degrees` overflows, so rotate
fails instead of producing the claimed hue
`((120 + (2^31 - 1)) mod 360) = 247`. -/
theorem hsl_rotate_i32_overflow :
    HSL.rotate ⟨120, 100, 50⟩ (2 ^ 31 - 1) = none ∧
    ((120 : Int) + (2 ^ 31 - 1)) % 360 = 247 := by decide

/-- C3 (amended): mutators keep every field in range and do not fail,
for the arguments under which the machine arithmetic cannot overflow:
the three setters with any argument, rotate whenever `old hue +
degrees` fits in `i32`, and darken/lighten for every ratio ≤ 1
(including all negative ratios, whose product the saturating cast
sends to 0).  For ratio > 1 darken's unsigned subtraction can overflow
(see the counterexample), which is the only change forced to the
original claim. -/
theorem hsl_mutators_amended :
    (∀ (x : HSL) (n : Nat), x.valid →
        (x.set_hue n).valid ∧ (x.set_saturation n).valid ∧ (x.set_lightness n).valid) ∧
    (∀ (x : HSL) (d : Int), x.valid → -(2 ^ 31) ≤ d → (x.h : Int) + d < 2 ^ 31 →
        ∃ y, HSL.rotate x d = some y ∧ y.valid) ∧
    (∀ (x : HSL) (q : ℚ), x.valid → q ≤ 1 →
        (∃ y, HSL.darken x q = some y ∧ y.valid) ∧
        (∃ y, HSL.lighten x q = some y ∧ y.valid)) := by
  refine ⟨?_, ?_, ?_⟩
  · intro x n hx
    obtain ⟨h1, h2, h3⟩ := hx
    have hh : x.h ≤ 360 := h1
    have hs : x.s ≤ 100 := h2
    have hl : x.l ≤ 100 := h3
    refine ⟨⟨?_, ?_, ?_⟩, ⟨?_, ?_, ?_⟩, ⟨?_, ?_, ?_⟩⟩
    · show min n 360 ≤ 360; omega
    · show x.s ≤ 100; omega
    · show x.l ≤ 100; omega
    · show x.h ≤ 360; omega
    · show min n 100 ≤ 100; omega
    · show x.l ≤ 100; omega
    · show x.h ≤ 360; omega
    · show x.s ≤ 100; omega
    · show min n 100 ≤ 100; omega
  · intro x d hx hlo hhi
    obtain ⟨h1, h2, h3⟩ := hx
    refine ⟨_, rotate_eq x d ⟨h1, h2, h3⟩ hlo hhi, ?_, h2, h3⟩
    show (((x.h : Int) + d) % 360).toNat ≤ 360
    have ha := Int.emod_nonneg ((x.h : Int) + d) (by norm_num : (360 : Int) ≠ 0)
    have hb := Int.emod_lt_of_pos ((x.h : Int) + d) (by norm_num : (0 : Int) < 360)
    omega
  · intro x q hx h1
    have hl : x.l ≤ 100 := hx.2.2
    constructor
    · refine ⟨_, darken_eq x q hx h1, hx.1, hx.2.1, ?_⟩
      show x.l - castU32 (f32round ((x.l : ℚ) * q)) ≤ 100
      omega
    · refine ⟨_, lighten_eq x q hx h1, hx.1, hx.2.1, ?_⟩
      show min (x.l + castU32 (f32round ((x.l : ℚ) * q))) 100 ≤ 100
      omega

/-- Witness for C3 at concrete arguments for each mutator family,
including a negative darken ratio. -/
theorem hsl_mutators_amended_witness :
    ((⟨120, 100, 50⟩ : HSL).set_hue 500).valid ∧
    (∃ y, HSL.rotate ⟨120, 100, 50⟩ (-150) = some y ∧ y.valid) ∧
    (∃ y, HSL.darken ⟨120, 100, 50⟩ (-2) = some y ∧ y.valid) :=
  ⟨(hsl_mutators_amended.1 ⟨120, 100, 50⟩ 500 (by decide)).1,
   hsl_mutators_amended.2.1 ⟨120, 100, 50⟩ (-150) (by decide) (by decide) (by decide),
   (hsl_mutators_amended.2.2 ⟨120, 100, 50⟩ (-2) (by decide) (by norm_num)).1⟩

/-- Counterexample to C3 as stated: darken with ratio 2 on lightness 50
computes the f32 product 100 exactly, truncates it to 100, and the u32
subtraction `50 - 100` overflows, so the mutator fails (checked Rust
arithmetic panics there; a wrapping release build would wrap and then
clamp). -/
theorem hsl_darken_ratio_two_fails : HSL.darken ⟨120, 100, 50⟩ 2 = none := by
  have hc : castU32 (f32round (((⟨120, 100, 50⟩ : HSL).l : ℚ) * 2)) = 100 := by
    show castU32 (f32round (((50 : ℕ) : ℚ) * 2)) = 100
    exact castU32_f32round_eval _ 6 13107200 ((100 : ℕ) : ℚ) 100
      (by norm_num) (by norm_num) (by norm_num)
      (rne_eval_low _ 13107200 (by norm_num) (by norm_num))
      (by norm_num) (by norm_num) (Int.floor_natCast 100) (by norm_num)
  simp only [HSL.darken]
  rw [hc, if_neg (by decide)]

/-- C5 (amended): for every ratio ≤ 1, darken sets lightness to
`old - trunc(fl(old·ratio))` and lighten to `old + trunc(fl(old·ratio))`
clamped to `[0,100]`, where `fl` is the IEEE f32 round-to-nearest of
the exact product and `trunc` the unsigned cast — the rounding and
truncation before the addition or subtraction are the only changes
forced to the original claim (see the counterexample).  The claimed
concrete instances hold exactly, with `0.2` taken as the f32 value
`13421773 / 2^26` that the source's literal denotes. -/
theorem hsl_darken_lighten_amended :
    (∀ (x : HSL) (q : ℚ), x.valid → q ≤ 1 →
        HSL.darken x q = some ⟨x.h, x.s, x.l - castU32 (f32round ((x.l : ℚ) * q))⟩ ∧
        HSL.lighten x q = some ⟨x.h, x.s, min (x.l + castU32 (f32round ((x.l : ℚ) * q))) 100⟩) ∧
    HSL.darken ⟨120, 100, 50⟩ (13421773 / 2 ^ 26) = some ⟨120, 100, 40⟩ ∧
    HSL.toChars ⟨120, 100, 40⟩ = "hsl(120,100%,40%)".toList ∧
    HSL.lighten ⟨120, 100, 50⟩ (13421773 / 2 ^ 26) = some ⟨120, 100, 60⟩ ∧
    HSL.toChars ⟨120, 100, 60⟩ = "hsl(120,100%,60%)".toList := by
  have hc : castU32 (f32round (((⟨120, 100, 50⟩ : HSL).l : ℚ) * (13421773 / 2 ^ 26))) = 10 := by
    show castU32 (f32round (((50 : ℕ) : ℚ) * (13421773 / 2 ^ 26))) = 10
    exact castU32_f32round_eval _ 3 10485760 ((10 : ℕ) : ℚ) 10
      (by norm_num) (by norm_num) (by norm_num)
      (rne_eval_low _ 10485760 (by norm_num) (by norm_num))
      (by norm_num) (by norm_num) (Int.floor_natCast 10) (by norm_num)
  refine ⟨fun x q hx h1 => ⟨darken_eq x q hx h1, lighten_eq x q hx h1⟩,
    ?_, by decide, ?_, by decide⟩
  · rw [darken_eq ⟨120, 100, 50⟩ (13421773 / 2 ^ 26) (by decide) (by norm_num), hc]
    decide
  · rw [lighten_eq ⟨120, 100, 50⟩ (13421773 / 2 ^ 26) (by decide) (by norm_num), hc]
    decide

/-- Witness for C5's universal part at lightness 80 and ratio 1/2. -/
theorem hsl_darken_lighten_amended_witness :
    HSL.darken ⟨120, 100, 80⟩ (1 / 2) =
      some ⟨120, 100, 80 - castU32 (f32round (((80 : Nat) : ℚ) * (1 / 2)))⟩ :=
  (hsl_darken_lighten_amended.1 ⟨120, 100, 80⟩ (1 / 2) (by decide) (by norm_num)).1

/-- Counterexample to C5 as stated: from lightness 10 with ratio 1/4
(both 1/4 and the product 2.5 are exactly representable in f32, so the
source computes them exactly), the code truncates `2.5` to `2` and
yields lightness 8, whereas `old - old·ratio = 7.5`. -/
theorem hsl_darken_truncates :
    (HSL.darken ⟨120, 100, 10⟩ (1 / 4)).map (fun y => (y.l : ℚ)) = some 8 ∧
    ¬ ((10 : ℚ) - 10 * (1 / 4) = 8) := by
  have hc : castU32 (f32round (((⟨120, 100, 10⟩ : HSL).l : ℚ) * (1 / 4))) = 2 := by
    show castU32 (f32round (((10 : ℕ) : ℚ) * (1 / 4))) = 2
    exact castU32_f32round_eval _ 1 10485760 (5 / 2) 2
      (by norm_num) (by norm_num) (by norm_num)
      (rne_eval_low _ 10485760 (by norm_num) (by norm_num))
      (by norm_num) (by norm_num)
      (by rw [Int.floor_eq_iff] <;> norm_num) (by norm_num)
  constructor
  · rw [darken_eq ⟨120, 100, 10⟩ (1 / 4) (by decide) (by norm_num), hc]
    norm_num
  · norm_num

end EasyColor
